import Mathlib

/-!
Verification of the Margolus sand cellular automaton (src/Source.cpp).

The embedding follows the C++ source: a `Block` is the 2x2 sample
(top-left, top-right, bottom-left, bottom-right), rules are matched in
order with an optional horizontally mirrored retry, and `Margolus.step`
iterates over the block anchors of the current phase, writing rewritten
blocks into a next-generation buffer seeded with a copy of the cells.
-/

/-- A 2x2 block of cell values, in order: top-left, top-right, bottom-left,
bottom-right (`using Block = std::array<int, 4>`). -/
structure Block where
  b0 : Int
  b1 : Int
  b2 : Int
  b3 : Int
deriving DecidableEq, Repr

/-- Horizontal reflection of a block (`mirror_h`): swaps slots 0 and 1 and
slots 2 and 3. -/
def mirror_h (b : Block) : Block := ⟨b.b1, b.b0, b.b3, b.b2⟩

/-- Pattern match (`match_pattern`): a slot equal to -1 matches any value,
otherwise the slot values must be exactly equal, for all four slots. -/
def match_pattern (rule_pat b : Block) : Bool :=
  (rule_pat.b0 == -1 || rule_pat.b0 == b.b0) &&
  ((rule_pat.b1 == -1 || rule_pat.b1 == b.b1) &&
  ((rule_pat.b2 == -1 || rule_pat.b2 == b.b2) &&
  (rule_pat.b3 == -1 || rule_pat.b3 == b.b3)))

/-- Output instantiation (`apply_output_template`): a template slot equal to
-1 copies the corresponding input slot, otherwise the template value is used. -/
def apply_output_template (out_tpl b : Block) : Block :=
  ⟨if out_tpl.b0 == -1 then b.b0 else out_tpl.b0,
   if out_tpl.b1 == -1 then b.b1 else out_tpl.b1,
   if out_tpl.b2 == -1 then b.b2 else out_tpl.b2,
   if out_tpl.b3 == -1 then b.b3 else out_tpl.b3⟩

/-- An automaton rule (`struct Rule`): input pattern, output template and the
horizontal-reflection flag.  The C++ field `in` is a Lean keyword and is
rendered `inp`. -/
structure Rule where
  inp : Block
  out : Block
  horizontal_reflection : Bool := false
deriving DecidableEq, Repr

/-- The sand rule table (`build_sand_rules`), in source order. -/
def build_sand_rules : List Rule :=
  [ ⟨⟨1, 1, 0, 0⟩, ⟨0, 0, 1, 1⟩, true⟩,
    ⟨⟨1, -1, 0, -1⟩, ⟨0, -1, 1, -1⟩, true⟩,
    ⟨⟨1, 0, -1, 0⟩, ⟨0, 0, -1, 1⟩, true⟩,
    ⟨⟨3, -1, 0, -1⟩, ⟨3, -1, 1, -1⟩, true⟩ ]

/-- The C++ normalisation `(x % w + w) % w`, with `%` the truncating C++
remainder (`Int.tmod`), as used in `Margolus::at`. -/
def cmod (x w : Int) : Int := (x.tmod w + w).tmod w

/-- The automaton state (`struct Margolus`): grid width and height, the flat
row-major cell vector, the alternating block offset, and the rule list. -/
structure Margolus where
  w : Nat
  h : Nat
  cells : List Int
  offset : Bool := false
  rules : List Rule

/-- Toroidal cell accessor (`Margolus::at`, read side): both coordinates are
normalised into range and the flat index `y * w + x` is read. -/
def Margolus.get (m : Margolus) (x y : Int) : Int :=
  m.cells.getD ((cmod y m.h).toNat * m.w + (cmod x m.w).toNat) 0

/-- The block sampled at anchor `(x0, y0)` inside `step()`:
`Block{ at(x0,y0), at(x0+1,y0), at(x0,y0+1), at(x0+1,y0+1) }`. -/
def Margolus.blockAt (m : Margolus) (x0 y0 : Nat) : Block :=
  ⟨m.get x0 y0, m.get (x0 + 1) y0, m.get x0 (y0 + 1), m.get (x0 + 1) (y0 + 1)⟩

/-- One iteration of the rule loop of `step()`: try the direct match, then —
when the rule is declared horizontally symmetric — the mirrored match, whose
instantiated output is mirrored back before writing. -/
def tryRule (r : Rule) (b : Block) : Option Block :=
  if match_pattern r.inp b then some (apply_output_template r.out b)
  else if r.horizontal_reflection && match_pattern r.inp (mirror_h b) then
    some (mirror_h (apply_output_template r.out (mirror_h b)))
  else none

/-- The rule loop of `step()`: the first rule that applies (directly or
mirrored) wins; if none applies the block produces no writes. -/
def findApplied : List Rule → Block → Option Block
  | [], _ => none
  | r :: rs, b =>
    match tryRule r b with
    | some out => some out
    | none => findApplied rs b

/-- The four flat indices written for the block anchored at `(x0, y0)`, in
write order, with toroidal wraparound on the `+1` offsets as in `step()`. -/
def blockIdxs (w h x0 y0 : Nat) : List Nat :=
  [y0 * w + x0,
   y0 * w + (x0 + 1) % w,
   ((y0 + 1) % h) * w + x0,
   ((y0 + 1) % h) * w + (x0 + 1) % w]

/-- The four buffer writes performed for a rewritten block in `step()`. -/
def writeBlock (w h : Nat) (buf : List Int) (x0 y0 : Nat) (out : Block) : List Int :=
  ((((buf.set (y0 * w + x0) out.b0).set
      (y0 * w + (x0 + 1) % w) out.b1).set
      (((y0 + 1) % h) * w + x0) out.b2).set
      (((y0 + 1) % h) * w + (x0 + 1) % w) out.b3)

/-- The anchor coordinates visited by the double block loop of `step()`:
`by` runs from `oy` while `by < h + oy` in steps of 2 (inner loop likewise
for `bx`), and the anchor is `(bx % w, by % h)`. -/
def anchors (w h : Nat) (off : Bool) : List (Nat × Nat) :=
  let o : Nat := if off then 1 else 0
  (List.range ((h + 1) / 2)).flatMap (fun j =>
    (List.range ((w + 1) / 2)).map (fun i => ((o + 2 * i) % w, (o + 2 * j) % h)))

/-- The body of the block loop of `step()`: sample the block, run the rule
loop, and write the rewritten block into the buffer when a rule applied. -/
def processAnchor (m : Margolus) (buf : List Int) (a : Nat × Nat) : List Int :=
  match findApplied m.rules (m.blockAt a.1 a.2) with
  | some out => writeBlock m.w m.h buf a.1 a.2 out
  | none => buf

/-- The block pass of `step()` run over a given initial next-generation
buffer; `step()` itself seeds the buffer with a copy of the cells
(`std::vector<int> next = cells`). -/
def Margolus.stepWith (m : Margolus) (init : List Int) : Margolus :=
  { m with
    cells := (anchors m.w m.h m.offset).foldl (processAnchor m) init,
    offset := !m.offset }

/-- One generation (`Margolus::step()`), with the buffer seeded as a copy of
the current cells, followed by the phase flip. -/
def Margolus.step (m : Margolus) : Margolus := m.stepWith m.cells

/-- The variant of `step()` that seeds the next-generation buffer with zeros
instead of a copy of the current cells. -/
def Margolus.stepZero (m : Margolus) : Margolus :=
  m.stepWith (List.replicate m.cells.length 0)

/-- Repeated calls of `step()`, `N` times. -/
def Margolus.stepN (m : Margolus) : Nat → Margolus
  | 0 => m
  | n + 1 => (m.stepN n).step

/-- The second sand rule, `{1,a,0,b} -> {0,a,1,b}` with horizontal
reflection, considered on its own. -/
def fall_rule : Rule := ⟨⟨1, -1, 0, -1⟩, ⟨0, -1, 1, -1⟩, true⟩

/-- Claim C1: on a 4x4 grid that is all zero except the 2x2 block anchored at
(0,0) holding (1,1,0,0), one `step()` in phase 0 rewrites that block to
(0,0,1,1) by rule 1 and leaves every other cell 0. -/
theorem step_falling_block_4x4 :
    (Margolus.step ⟨4, 4, [1, 1, 0, 0, 0, 0, 0, 0, 0, 0, 0, 0, 0, 0, 0, 0],
        false, build_sand_rules⟩).cells
      = [0, 0, 0, 0, 1, 1, 0, 0, 0, 0, 0, 0, 0, 0, 0, 0] := by decide

/-! ### Arithmetic facts about the C++ modulo normalisation -/

theorem neg_tmod_left (a b : Int) : (-a).tmod b = -(a.tmod b) := by
  rw [Int.tmod_def, Int.tmod_def, Int.neg_tdiv]
  ring

theorem neg_lt_tmod (x : Int) {w : Int} (hw : 0 < w) : -w < x.tmod w := by
  rcases le_or_lt 0 x with h | h
  · have := Int.tmod_nonneg w h
    linarith
  · have hlt : (-x).tmod w < w := Int.tmod_lt_of_pos _ hw
    have he : x.tmod w = -((-x).tmod w) := by
      conv_lhs => rw [show x = -(-x) by ring, neg_tmod_left]
    linarith

theorem cmod_eq_emod (x : Int) {w : Int} (hw : 0 < w) : cmod x w = x % w := by
  unfold cmod
  have h1 : 0 ≤ x.tmod w + w := by
    have := neg_lt_tmod x hw
    linarith
  rw [Int.tmod_eq_emod h1 (Int.le_of_lt hw)]
  rw [show x.tmod w + w = x.tmod w + 1 * w by ring, Int.add_mul_emod_self]
  rw [Int.tmod_def]
  rw [show x - w * x.tdiv w = x + (-(x.tdiv w)) * w by ring, Int.add_mul_emod_self]

theorem cmod_nonneg (x : Int) {w : Int} (hw : 0 < w) : 0 ≤ cmod x w := by
  rw [cmod_eq_emod x hw]
  exact Int.emod_nonneg x (by omega)

theorem cmod_lt (x : Int) {w : Int} (hw : 0 < w) : cmod x w < w := by
  rw [cmod_eq_emod x hw]
  exact Int.emod_lt_of_pos x hw

theorem cmod_cmod (x : Int) {w : Int} (hw : 0 < w) : cmod (cmod x w) w = cmod x w := by
  rw [cmod_eq_emod x hw, cmod_eq_emod _ hw, Int.emod_emod]

theorem cmod_natCast {x w : Nat} (hx : x < w) : cmod (x : Int) (w : Int) = (x : Int) := by
  have hw : (0 : Int) < w := by exact_mod_cast Nat.pos_of_ne_zero (by omega)
  rw [cmod_eq_emod _ hw, ← Int.ofNat_emod, Nat.mod_eq_of_lt hx]

/-- Claim C5: after `N` calls of `step()` the phase equals the initial phase
XORed with `N mod 2`, and each single `step()` flips the phase exactly once. -/
theorem stepN_offset_alternates (m : Margolus) (n : Nat) :
    (m.stepN n).offset = xor m.offset (decide (n % 2 = 1)) ∧
    (m.step).offset = !m.offset := by
  refine ⟨?_, rfl⟩
  induction n with
  | zero => simp [Margolus.stepN]
  | succ k ih =>
    have hs : (m.stepN (k + 1)).offset = !(m.stepN k).offset := rfl
    rw [hs, ih]
    rcases Nat.mod_two_eq_zero_or_one k with hk | hk <;>
      · have hk1 : (k + 1) % 2 = (k % 2 + 1) % 2 := by omega
        rw [hk1, hk]
        cases m.offset <;> simp

/-- Claim C6: toroidal indexing is total and in range: the accessor reads the
cell at the normalised coordinates `((x % w + w) % w, (y % h + h) % h)`, those
coordinates are in range, the flat index is within `w * h`, and in particular
`get (-1) (-1)` equals `get (w-1) (h-1)`. -/
theorem get_toroidal (m : Margolus) (x y : Int) (hw : 0 < m.w) (hh : 0 < m.h) :
    m.get x y = m.get (cmod x m.w) (cmod y m.h) ∧
    0 ≤ cmod x m.w ∧ cmod x m.w < m.w ∧
    0 ≤ cmod y m.h ∧ cmod y m.h < m.h ∧
    (cmod y m.h).toNat * m.w + (cmod x m.w).toNat < m.w * m.h ∧
    m.get (-1) (-1) = m.get ((m.w : Int) - 1) ((m.h : Int) - 1) := by
  have hwi : (0 : Int) < m.w := by exact_mod_cast hw
  have hhi : (0 : Int) < m.h := by exact_mod_cast hh
  have hx1 := cmod_nonneg x hwi
  have hx2 := cmod_lt x hwi
  have hy1 := cmod_nonneg y hhi
  have hy2 := cmod_lt y hhi
  refine ⟨?_, hx1, hx2, hy1, hy2, ?_, ?_⟩
  · unfold Margolus.get
    rw [cmod_cmod x hwi, cmod_cmod y hhi]
  · have hx3 : (cmod x m.w).toNat < m.w := by omega
    have hy3 : (cmod y m.h).toNat < m.h := by omega
    calc (cmod y m.h).toNat * m.w + (cmod x m.w).toNat
        < (cmod y m.h).toNat * m.w + m.w := by omega
      _ = ((cmod y m.h).toNat + 1) * m.w := by ring
      _ ≤ m.h * m.w := Nat.mul_le_mul_right _ (by omega)
      _ = m.w * m.h := Nat.mul_comm _ _
  · have hxe : cmod (-1) (m.w : Int) = cmod ((m.w : Int) - 1) (m.w : Int) := by
      rw [cmod_eq_emod _ hwi, cmod_eq_emod _ hwi]
      rw [show (m.w : Int) - 1 = -1 + 1 * (m.w : Int) by ring, Int.add_mul_emod_self]
    have hye : cmod (-1) (m.h : Int) = cmod ((m.h : Int) - 1) (m.h : Int) := by
      rw [cmod_eq_emod _ hhi, cmod_eq_emod _ hhi]
      rw [show (m.h : Int) - 1 = -1 + 1 * (m.h : Int) by ring, Int.add_mul_emod_self]
    unfold Margolus.get
    rw [hxe, hye]

/-- Witness for claim C6 at a concrete grid: on a 2x2 grid, `get (-1) (-1)`
equals `get 1 1`. -/
theorem get_toroidal_witness :
    Margolus.get ⟨2, 2, [5, 6, 7, 8], false, []⟩ (-1) (-1)
      = Margolus.get ⟨2, 2, [5, 6, 7, 8], false, []⟩ 1 1 := by
  have h := (get_toroidal ⟨2, 2, [5, 6, 7, 8], false, []⟩ (-1) (-1)
    (by decide) (by decide)).2.2.2.2.2.2
  simpa using h

/-- Counterexample to claim C2 as stated: with the single mirror-enabled rule
`{1,a,0,b} -> {0,a,1,b}`, the block (0,1,0,2) is not rewritten to (1,0,0,2)
by one `step()` (its mirror (1,0,2,0) has 2, not 0, at the bottom-left slot,
so neither the direct nor the mirrored match succeeds). -/
theorem mirror_rule_claim_counterexample :
    ¬ (Margolus.step ⟨2, 2, [0, 1, 0, 2], false, [fall_rule]⟩).cells
        = [1, 0, 0, 2] := by decide

/-- Claim C2 amended: the block (0,1,0,2) matches `{1,a,0,b} -> {0,a,1,b}`
neither directly nor mirrored, so under that single rule one `step()` leaves
it unchanged; under the full sand table one `step()` rewrites it through the
mirrored third rule `{1,0,a,0} -> {0,0,a,1}` into exactly (0,0,1,2); and
mirroring is an involution on blocks. -/
theorem mirror_rule_behavior :
    (Margolus.step ⟨2, 2, [0, 1, 0, 2], false, [fall_rule]⟩).cells
      = [0, 1, 0, 2] ∧
    (Margolus.step ⟨2, 2, [0, 1, 0, 2], false, build_sand_rules⟩).cells
      = [0, 0, 1, 2] ∧
    ∀ b : Block, mirror_h (mirror_h b) = b :=
  ⟨by decide, by decide, fun _ => rfl⟩

/-- Counterexample to claim C3 as stated: on the 2x2 grid of four source
cells (value 3), no block matches any sand rule, so seeding the
next-generation buffer with zeros yields the zero grid while `step()` yields
the unchanged grid — the two seedings are not equivalent and the block's
cells are never explicitly written. -/
theorem stepZero_ne_step_counterexample :
    ¬ (Margolus.stepZero ⟨2, 2, [3, 3, 3, 3], false, build_sand_rules⟩).cells
        = (Margolus.step ⟨2, 2, [3, 3, 3, 3], false, build_sand_rules⟩).cells := by
  decide

/-! ### The write list produced by one step -/

/-- The (index, value) writes a single block contributes in `step()`: four
writes when a rule applied, none otherwise. -/
def blockWrites (m : Margolus) (x0 y0 : Nat) : List (Nat × Int) :=
  match findApplied m.rules (m.blockAt x0 y0) with
  | some out =>
    [(y0 * m.w + x0, out.b0),
     (y0 * m.w + (x0 + 1) % m.w, out.b1),
     (((y0 + 1) % m.h) * m.w + x0, out.b2),
     (((y0 + 1) % m.h) * m.w + (x0 + 1) % m.w, out.b3)]
  | none => []

/-- Sequential application of a list of (index, value) writes to a buffer. -/
def applyWrites (init : List Int) (ws : List (Nat × Int)) : List Int :=
  ws.foldl (fun buf p => buf.set p.1 p.2) init

/-- All writes of one `step()`, in execution order. -/
def stepWrites (m : Margolus) : List (Nat × Int) :=
  (anchors m.w m.h m.offset).flatMap fun a => blockWrites m a.1 a.2

theorem applyWrites_cons (init : List Int) (p : Nat × Int) (ws : List (Nat × Int)) :
    applyWrites init (p :: ws) = applyWrites (init.set p.1 p.2) ws := rfl

theorem applyWrites_append (init : List Int) (l1 l2 : List (Nat × Int)) :
    applyWrites init (l1 ++ l2) = applyWrites (applyWrites init l1) l2 :=
  List.foldl_append _ _ _ _

theorem processAnchor_eq_applyWrites (m : Margolus) (buf : List Int) (a : Nat × Nat) :
    processAnchor m buf a = applyWrites buf (blockWrites m a.1 a.2) := by
  unfold processAnchor blockWrites
  cases findApplied m.rules (m.blockAt a.1 a.2) <;> rfl

theorem foldl_processAnchor_eq (m : Margolus) (as : List (Nat × Nat)) :
    ∀ init : List Int,
      as.foldl (processAnchor m) init
        = applyWrites init (as.flatMap fun a => blockWrites m a.1 a.2) := by
  induction as with
  | nil => intro init; rfl
  | cons a as ih =>
    intro init
    rw [List.foldl_cons, List.flatMap_cons, applyWrites_append,
      ← processAnchor_eq_applyWrites, ih]

theorem stepWith_cells (m : Margolus) (init : List Int) :
    (m.stepWith init).cells = applyWrites init (stepWrites m) :=
  foldl_processAnchor_eq m _ init

theorem applyWrites_length (ws : List (Nat × Int)) :
    ∀ init : List Int, (applyWrites init ws).length = init.length := by
  induction ws with
  | nil => intro init; rfl
  | cons p ws ih =>
    intro init
    rw [applyWrites_cons, ih, List.length_set]

theorem applyWrites_getD_of_not_mem (ws : List (Nat × Int)) (idx : Nat) :
    ∀ init : List Int, idx ∉ ws.map Prod.fst →
      (applyWrites init ws).getD idx 0 = init.getD idx 0 := by
  induction ws with
  | nil => intro init _; rfl
  | cons p ws ih =>
    intro init hmem
    simp only [List.map_cons, List.mem_cons, not_or] at hmem
    rw [applyWrites_cons, ih _ hmem.2]
    simp [List.getD_eq_getElem?_getD,
      List.getElem?_set_ne (fun h => hmem.1 h.symm)]

theorem applyWrites_getD_indep (ws : List (Nat × Int)) (idx : Nat) :
    ∀ init1 init2 : List Int, init1.length = init2.length → idx < init1.length →
      idx ∈ ws.map Prod.fst →
      (applyWrites init1 ws).getD idx 0 = (applyWrites init2 ws).getD idx 0 := by
  induction ws with
  | nil =>
    intro _ _ _ _ h
    simp at h
  | cons p ws ih =>
    intro init1 init2 hlen hidx hmem
    rw [applyWrites_cons, applyWrites_cons]
    by_cases hm : idx ∈ ws.map Prod.fst
    · exact ih _ _ (by simp [hlen]) (by simpa using hidx) hm
    · have hp : p.1 = idx := by
        simp only [List.map_cons, List.mem_cons] at hmem
        tauto
      rw [applyWrites_getD_of_not_mem _ _ _ hm, applyWrites_getD_of_not_mem _ _ _ hm]
      subst hp
      have h2 : p.1 < init2.length := by omega
      simp [List.getD_eq_getElem?_getD, List.getElem?_set_self hidx,
        List.getElem?_set_self h2]

/-- Claim C3 amended: the cells of blocks that match some rule are explicitly
written by `step()`, and at exactly those cells the next generation is
independent of how the next-generation buffer was seeded: the zero-seeded
variant agrees with `step()` there.  (Blocks that match no rule write
nothing and survive only through the buffer copy, so the full zero-seeding
equivalence fails; see the counterexample.) -/
theorem stepZero_agrees_on_written (m : Margolus) (idx : Nat)
    (hmem : idx ∈ (stepWrites m).map Prod.fst) (hidx : idx < m.cells.length) :
    (m.stepZero).cells.getD idx 0 = (m.step).cells.getD idx 0 := by
  rw [Margolus.step, Margolus.stepZero, stepWith_cells, stepWith_cells]
  exact applyWrites_getD_indep _ _ _ _ (by simp) (by simpa) hmem

/-- Witness for claim C3 amended, on a 2x2 grid whose single block matches
rule 1: cell 0 is written, and the zero-seeded step agrees with `step()`
there. -/
theorem stepZero_agrees_on_written_witness :
    (Margolus.stepZero ⟨2, 2, [1, 1, 0, 0], false, build_sand_rules⟩).cells.getD 0 0
      = (Margolus.step ⟨2, 2, [1, 1, 0, 0], false, build_sand_rules⟩).cells.getD 0 0 :=
  stepZero_agrees_on_written _ 0 (by decide) (by decide)

/-! ### Case analysis of the sand rule table on one block -/

/-- The first sand rule, `{1,1,0,0} -> {0,0,1,1}` with horizontal reflection. -/
def sand1 : Rule := ⟨⟨1, 1, 0, 0⟩, ⟨0, 0, 1, 1⟩, true⟩

/-- The third sand rule, `{1,0,a,0} -> {0,0,a,1}` with horizontal reflection. -/
def sand3 : Rule := ⟨⟨1, 0, -1, 0⟩, ⟨0, 0, -1, 1⟩, true⟩

/-- The fourth sand rule, `{3,a,0,b} -> {3,a,1,b}` with horizontal reflection. -/
def sand4 : Rule := ⟨⟨3, -1, 0, -1⟩, ⟨3, -1, 1, -1⟩, true⟩

theorem build_sand_rules_eq : build_sand_rules = [sand1, fall_rule, sand3, sand4] := rfl

theorem findApplied_cons (r : Rule) (rs : List Rule) (b : Block) :
    findApplied (r :: rs) b =
      match tryRule r b with
      | some out => some out
      | none => findApplied rs b := rfl

theorem tryRule_sand1 (b out : Block) (h : tryRule sand1 b = some out) :
    b = ⟨1, 1, 0, 0⟩ ∧ out = ⟨0, 0, 1, 1⟩ := by
  unfold tryRule at h
  split_ifs at h with h1 h2
  · simp [sand1, match_pattern] at h1
    simp [sand1, apply_output_template] at h
    obtain ⟨e0, e1, e2, e3⟩ := h1
    rcases b with ⟨x0, x1, x2, x3⟩
    simp_all
  · simp [sand1, match_pattern, mirror_h] at h2
    simp [sand1, apply_output_template, mirror_h] at h
    obtain ⟨e1, e0, e3, e2⟩ := h2
    rcases b with ⟨x0, x1, x2, x3⟩
    simp_all

theorem tryRule_fall (b out : Block) (h : tryRule fall_rule b = some out) :
    (b.b0 = 1 ∧ b.b2 = 0 ∧ out = ⟨0, b.b1, 1, b.b3⟩) ∨
    (b.b1 = 1 ∧ b.b3 = 0 ∧ out = ⟨b.b0, 0, b.b2, 1⟩) := by
  unfold tryRule at h
  split_ifs at h with h1 h2
  · left
    simp [fall_rule, match_pattern] at h1
    simp [fall_rule, apply_output_template] at h
    exact ⟨h1.1.symm, h1.2.symm, h.symm⟩
  · right
    simp [fall_rule, match_pattern, mirror_h] at h2
    simp [fall_rule, apply_output_template, mirror_h] at h
    exact ⟨h2.1.symm, h2.2.symm, h.symm⟩

theorem tryRule_sand3 (b out : Block) (h : tryRule sand3 b = some out) :
    (b.b0 = 1 ∧ b.b1 = 0 ∧ b.b3 = 0 ∧ out = ⟨0, 0, b.b2, 1⟩) ∨
    (b.b1 = 1 ∧ b.b0 = 0 ∧ b.b2 = 0 ∧ out = ⟨0, 0, 1, b.b3⟩) := by
  unfold tryRule at h
  split_ifs at h with h1 h2
  · left
    simp [sand3, match_pattern] at h1
    simp [sand3, apply_output_template] at h
    exact ⟨h1.1.symm, h1.2.1.symm, h1.2.2.symm, h.symm⟩
  · right
    simp [sand3, match_pattern, mirror_h] at h2
    simp [sand3, apply_output_template, mirror_h] at h
    exact ⟨h2.1.symm, h2.2.1.symm, h2.2.2.symm, h.symm⟩

theorem tryRule_sand4 (b out : Block) (h : tryRule sand4 b = some out) :
    (b.b0 = 3 ∧ b.b2 = 0 ∧ out = ⟨3, b.b1, 1, b.b3⟩) ∨
    (b.b1 = 3 ∧ b.b3 = 0 ∧ out = ⟨b.b0, 3, b.b2, 1⟩) := by
  unfold tryRule at h
  split_ifs at h with h1 h2
  · left
    simp [sand4, match_pattern] at h1
    simp [sand4, apply_output_template] at h
    exact ⟨h1.1.symm, h1.2.symm, h.symm⟩
  · right
    simp [sand4, match_pattern, mirror_h] at h2
    simp [sand4, apply_output_template, mirror_h] at h
    exact ⟨h2.1.symm, h2.2.symm, h.symm⟩

/-- Exhaustive description of a successful rule application under the sand
table: one of the seven direct or mirrored rule shapes fired. -/
theorem findApplied_sand_cases (b out : Block)
    (h : findApplied build_sand_rules b = some out) :
    (b = ⟨1, 1, 0, 0⟩ ∧ out = ⟨0, 0, 1, 1⟩) ∨
    (b.b0 = 1 ∧ b.b2 = 0 ∧ out = ⟨0, b.b1, 1, b.b3⟩) ∨
    (b.b1 = 1 ∧ b.b3 = 0 ∧ out = ⟨b.b0, 0, b.b2, 1⟩) ∨
    (b.b0 = 1 ∧ b.b1 = 0 ∧ b.b3 = 0 ∧ out = ⟨0, 0, b.b2, 1⟩) ∨
    (b.b1 = 1 ∧ b.b0 = 0 ∧ b.b2 = 0 ∧ out = ⟨0, 0, 1, b.b3⟩) ∨
    (b.b0 = 3 ∧ b.b2 = 0 ∧ out = ⟨3, b.b1, 1, b.b3⟩) ∨
    (b.b1 = 3 ∧ b.b3 = 0 ∧ out = ⟨b.b0, 3, b.b2, 1⟩) := by
  rw [build_sand_rules_eq] at h
  rw [findApplied_cons] at h
  cases e1 : tryRule sand1 b with
  | some o =>
    rw [e1] at h
    simp only [Option.some.injEq] at h
    subst h
    exact Or.inl (tryRule_sand1 b _ e1)
  | none =>
  rw [e1] at h
  rw [findApplied_cons] at h
  cases e2 : tryRule fall_rule b with
  | some o =>
    rw [e2] at h
    simp only [Option.some.injEq] at h
    subst h
    rcases tryRule_fall b _ e2 with hc | hc
    · exact Or.inr (Or.inl hc)
    · exact Or.inr (Or.inr (Or.inl hc))
  | none =>
  rw [e2] at h
  rw [findApplied_cons] at h
  cases e3 : tryRule sand3 b with
  | some o =>
    rw [e3] at h
    simp only [Option.some.injEq] at h
    subst h
    rcases tryRule_sand3 b _ e3 with hc | hc
    · exact Or.inr (Or.inr (Or.inr (Or.inl hc)))
    · exact Or.inr (Or.inr (Or.inr (Or.inr (Or.inl hc))))
  | none =>
  rw [e3] at h
  rw [findApplied_cons] at h
  cases e4 : tryRule sand4 b with
  | some o =>
    rw [e4] at h
    simp only [Option.some.injEq] at h
    subst h
    rcases tryRule_sand4 b _ e4 with hc | hc
    · exact Or.inr (Or.inr (Or.inr (Or.inr (Or.inr (Or.inl hc)))))
    · exact Or.inr (Or.inr (Or.inr (Or.inr (Or.inr (Or.inr hc)))))
  | none =>
  rw [e4] at h
  simp [findApplied] at h

/-- The state domain produced by the sand rule table. -/
def stateD (v : Int) : Prop := v = 0 ∨ v = 1 ∨ v = 2 ∨ v = 3

instance (v : Int) : Decidable (stateD v) := by
  unfold stateD
  infer_instance

/-- A rewritten block only holds values from the state domain when the input
block did. -/
theorem sand_out_domain (b out : Block) (h : findApplied build_sand_rules b = some out)
    (h0 : stateD b.b0) (h1 : stateD b.b1) (h2 : stateD b.b2) (h3 : stateD b.b3) :
    stateD out.b0 ∧ stateD out.b1 ∧ stateD out.b2 ∧ stateD out.b3 := by
  have d0 : stateD 0 := Or.inl rfl
  have d1 : stateD 1 := Or.inr (Or.inl rfl)
  have d3 : stateD 3 := Or.inr (Or.inr (Or.inr rfl))
  rcases findApplied_sand_cases b out h with
    ⟨rfl, rfl⟩ | ⟨e1, e2, rfl⟩ | ⟨e1, e2, rfl⟩ | ⟨e1, e2, e3, rfl⟩ |
    ⟨e1, e2, e3, rfl⟩ | ⟨e1, e2, rfl⟩ | ⟨e1, e2, rfl⟩
  · exact ⟨d0, d0, d1, d1⟩
  · exact ⟨d0, h1, d1, h3⟩
  · exact ⟨h0, d0, h2, d1⟩
  · exact ⟨d0, d0, h2, d1⟩
  · exact ⟨d0, d0, d1, h3⟩
  · exact ⟨d3, h1, d1, h3⟩
  · exact ⟨h0, d3, h2, d1⟩

/-- A rewritten block keeps every slot that holds a ground (2) or source (3)
value unchanged. -/
theorem sand_out_fixes (b out : Block) (h : findApplied build_sand_rules b = some out) :
    ((b.b0 = 2 ∨ b.b0 = 3) → out.b0 = b.b0) ∧
    ((b.b1 = 2 ∨ b.b1 = 3) → out.b1 = b.b1) ∧
    ((b.b2 = 2 ∨ b.b2 = 3) → out.b2 = b.b2) ∧
    ((b.b3 = 2 ∨ b.b3 = 3) → out.b3 = b.b3) := by
  rcases findApplied_sand_cases b out h with
    ⟨rfl, rfl⟩ | ⟨e1, e2, rfl⟩ | ⟨e1, e2, rfl⟩ | ⟨e1, e2, e3, rfl⟩ |
    ⟨e1, e2, e3, rfl⟩ | ⟨e1, e2, rfl⟩ | ⟨e1, e2, rfl⟩
  · exact ⟨fun hx => absurd hx (by decide), fun hx => absurd hx (by decide),
      fun hx => absurd hx (by decide), fun hx => absurd hx (by decide)⟩
  · exact ⟨fun hx => by omega, fun _ => rfl, fun hx => by omega, fun _ => rfl⟩
  · exact ⟨fun _ => rfl, fun hx => by omega, fun _ => rfl, fun hx => by omega⟩
  · exact ⟨fun hx => by omega, fun hx => by omega, fun _ => rfl, fun hx => by omega⟩
  · exact ⟨fun hx => by omega, fun hx => by omega, fun hx => by omega, fun _ => rfl⟩
  · exact ⟨fun _ => e1.symm, fun _ => rfl, fun hx => by omega, fun _ => rfl⟩
  · exact ⟨fun _ => rfl, fun _ => e1.symm, fun _ => rfl, fun hx => by omega⟩

/-- Indicator of a sand cell (value 1). -/
def ind1 (v : Int) : Nat := if v = 1 then 1 else 0

/-- Number of sand cells in a block. -/
def cnt1b (b : Block) : Nat := ind1 b.b0 + ind1 b.b1 + ind1 b.b2 + ind1 b.b3

/-- A rewritten block never has fewer sand cells than the input block (the
first three rules move sand, the source rule adds one grain). -/
theorem sand_out_count (b out : Block) (h : findApplied build_sand_rules b = some out) :
    cnt1b b ≤ cnt1b out := by
  have i0 : ind1 0 = 0 := rfl
  have i1 : ind1 1 = 1 := rfl
  have i3 : ind1 3 = 0 := rfl
  rcases findApplied_sand_cases b out h with
    ⟨rfl, rfl⟩ | ⟨e1, e2, rfl⟩ | ⟨e1, e2, rfl⟩ | ⟨e1, e2, e3, rfl⟩ |
    ⟨e1, e2, e3, rfl⟩ | ⟨e1, e2, rfl⟩ | ⟨e1, e2, rfl⟩
  · decide
  · show ind1 b.b0 + ind1 b.b1 + ind1 b.b2 + ind1 b.b3
      ≤ ind1 0 + ind1 b.b1 + ind1 1 + ind1 b.b3
    rw [e1, e2]
    simp only [i0, i1]
    omega
  · show ind1 b.b0 + ind1 b.b1 + ind1 b.b2 + ind1 b.b3
      ≤ ind1 b.b0 + ind1 0 + ind1 b.b2 + ind1 1
    rw [e1, e2]
    simp only [i0, i1]
    omega
  · show ind1 b.b0 + ind1 b.b1 + ind1 b.b2 + ind1 b.b3
      ≤ ind1 0 + ind1 0 + ind1 b.b2 + ind1 1
    rw [e1, e2, e3]
    simp only [i0, i1]
    omega
  · show ind1 b.b0 + ind1 b.b1 + ind1 b.b2 + ind1 b.b3
      ≤ ind1 0 + ind1 0 + ind1 1 + ind1 b.b3
    rw [e1, e2, e3]
    simp only [i0, i1]
    omega
  · show ind1 b.b0 + ind1 b.b1 + ind1 b.b2 + ind1 b.b3
      ≤ ind1 3 + ind1 b.b1 + ind1 1 + ind1 b.b3
    rw [e1, e2]
    simp only [i0, i1, i3]
    omega
  · show ind1 b.b0 + ind1 b.b1 + ind1 b.b2 + ind1 b.b3
      ≤ ind1 b.b0 + ind1 3 + ind1 b.b2 + ind1 1
    rw [e1, e2]
    simp only [i0, i1, i3]
    omega

/-! ### Claim C8: the step never leaves the state domain -/

theorem stateD_getD {l : List Int} (hl : ∀ v ∈ l, stateD v) (i : Nat) :
    stateD (l.getD i 0) := by
  by_cases hi : i < l.length
  · rw [List.getD_eq_getElem?_getD, List.getElem?_eq_getElem hi]
    exact hl _ (List.getElem_mem hi)
  · rw [List.getD_eq_getElem?_getD, List.getElem?_eq_none (by omega)]
    exact Or.inl rfl

theorem stateD_get (m : Margolus) (hc : ∀ v ∈ m.cells, stateD v) (x y : Int) :
    stateD (m.get x y) :=
  stateD_getD hc _

theorem mem_writeBlock {w h : Nat} {buf : List Int} {x0 y0 : Nat} {out : Block} {v : Int}
    (hv : v ∈ writeBlock w h buf x0 y0 out) :
    v ∈ buf ∨ v = out.b0 ∨ v = out.b1 ∨ v = out.b2 ∨ v = out.b3 := by
  unfold writeBlock at hv
  rcases List.mem_or_eq_of_mem_set hv with hv | rfl
  · rcases List.mem_or_eq_of_mem_set hv with hv | rfl
    · rcases List.mem_or_eq_of_mem_set hv with hv | rfl
      · rcases List.mem_or_eq_of_mem_set hv with hv | rfl
        · exact Or.inl hv
        · exact Or.inr (Or.inl rfl)
      · exact Or.inr (Or.inr (Or.inl rfl))
    · exact Or.inr (Or.inr (Or.inr (Or.inl rfl)))
  · exact Or.inr (Or.inr (Or.inr (Or.inr rfl)))

theorem foldl_processAnchor_domain (m : Margolus) (hr : m.rules = build_sand_rules)
    (hc : ∀ v ∈ m.cells, stateD v) (as : List (Nat × Nat)) :
    ∀ buf : List Int, (∀ v ∈ buf, stateD v) →
      ∀ v ∈ as.foldl (processAnchor m) buf, stateD v := by
  induction as with
  | nil => intro buf hbuf; exact hbuf
  | cons a as ih =>
    intro buf hbuf
    rw [List.foldl_cons]
    apply ih
    unfold processAnchor
    cases hfa : findApplied m.rules (m.blockAt a.1 a.2) with
    | none => exact hbuf
    | some out =>
      have hout := sand_out_domain (m.blockAt a.1 a.2) out (hr ▸ hfa)
        (stateD_get m hc _ _) (stateD_get m hc _ _)
        (stateD_get m hc _ _) (stateD_get m hc _ _)
      intro v hv
      rcases mem_writeBlock hv with hv | rfl | rfl | rfl | rfl
      · exact hbuf v hv
      · exact hout.1
      · exact hout.2.1
      · exact hout.2.2.1
      · exact hout.2.2.2

/-- Claim C8: if every cell of the grid lies in the state domain {0,1,2,3} of
the sand rule table, then after `step()` every cell still lies in {0,1,2,3}:
the engine never invents out-of-domain values. -/
theorem step_preserves_domain (m : Margolus) (hr : m.rules = build_sand_rules)
    (hc : ∀ v ∈ m.cells, stateD v) :
    ∀ v ∈ (m.step).cells, stateD v :=
  foldl_processAnchor_domain m hr hc _ m.cells hc

/-- Witness for claim C8 on a concrete 2x2 grid containing all four states. -/
theorem step_preserves_domain_witness :
    stateD ((Margolus.step ⟨2, 2, [1, 0, 2, 3], false, build_sand_rules⟩).cells.getD 0 0) :=
  step_preserves_domain ⟨2, 2, [1, 0, 2, 3], false, build_sand_rules⟩ rfl (by decide) _
    (by decide)

/-! ### Claim C9: ground and source cells are fixed by the step -/

theorem cmod_natCast_mod {n w : Nat} (hw : 0 < w) :
    cmod (n : Int) (w : Int) = ((n % w : Nat) : Int) := by
  have hwi : (0 : Int) < w := by exact_mod_cast hw
  rw [cmod_eq_emod _ hwi, ← Int.ofNat_emod]

theorem get_natCast (m : Margolus) (x y : Nat) (hw : 0 < m.w) (hh : 0 < m.h) :
    m.get (x : Int) (y : Int) = m.cells.getD ((y % m.h) * m.w + x % m.w) 0 := by
  unfold Margolus.get
  rw [cmod_natCast_mod hw, cmod_natCast_mod hh, Int.toNat_natCast, Int.toNat_natCast]

theorem mem_anchors {w h : Nat} {off : Bool} {a : Nat × Nat} (ha : a ∈ anchors w h off) :
    ∃ i j : Nat, i < (w + 1) / 2 ∧ j < (h + 1) / 2 ∧
      a.1 = ((if off then 1 else 0) + 2 * i) % w ∧
      a.2 = ((if off then 1 else 0) + 2 * j) % h := by
  unfold anchors at ha
  simp only [List.mem_flatMap, List.mem_map, List.mem_range] at ha
  obtain ⟨j, hj, i, hi, he⟩ := ha
  exact ⟨i, j, hi, hj, by rw [← he], by rw [← he]⟩

theorem anchors_coord_lt {w h : Nat} {off : Bool} {a : Nat × Nat}
    (ha : a ∈ anchors w h off) : a.1 < w ∧ a.2 < h := by
  obtain ⟨i, j, hi, hj, hx, hy⟩ := mem_anchors ha
  have hw : 0 < w := by omega
  have hh : 0 < h := by omega
  rw [hx, hy]
  exact ⟨Nat.mod_lt _ hw, Nat.mod_lt _ hh⟩

/-- On in-range anchors, the sampled block is exactly the four buffer cells
that the corresponding writes would target. -/
theorem blockAt_getD (m : Margolus) {x0 y0 : Nat} (hx : x0 < m.w) (hy : y0 < m.h) :
    m.blockAt x0 y0 =
      ⟨m.cells.getD (y0 * m.w + x0) 0,
       m.cells.getD (y0 * m.w + (x0 + 1) % m.w) 0,
       m.cells.getD (((y0 + 1) % m.h) * m.w + x0) 0,
       m.cells.getD (((y0 + 1) % m.h) * m.w + (x0 + 1) % m.w) 0⟩ := by
  have hw : 0 < m.w := by omega
  have hh : 0 < m.h := by omega
  unfold Margolus.blockAt
  rw [show ((x0 : Int) + 1) = ((x0 + 1 : Nat) : Int) by push_cast; ring,
    show ((y0 : Int) + 1) = ((y0 + 1 : Nat) : Int) by push_cast; ring]
  rw [get_natCast m x0 y0 hw hh, get_natCast m (x0 + 1) y0 hw hh,
    get_natCast m x0 (y0 + 1) hw hh, get_natCast m (x0 + 1) (y0 + 1) hw hh]
  rw [Nat.mod_eq_of_lt hx, Nat.mod_eq_of_lt hy]

theorem getD_set_preserve {buf : List Int} {idx q : Nat} {v t : Int}
    (hq : q = idx → v = t) (hbuf : buf.getD idx 0 = t) :
    (buf.set q v).getD idx 0 = t := by
  by_cases hqi : q = idx
  · subst hqi
    by_cases hlen : q < buf.length
    · rw [List.getD_eq_getElem?_getD, List.getElem?_set_self hlen]
      simpa using hq rfl
    · rw [List.set_eq_of_length_le (by omega)]
      exact hbuf
  · rw [List.getD_eq_getElem?_getD, List.getElem?_set_ne hqi,
      ← List.getD_eq_getElem?_getD]
    exact hbuf

theorem processAnchor_fix_preserve (m : Margolus) (hr : m.rules = build_sand_rules)
    (idx : Nat) (hv : m.cells.getD idx 0 = 2 ∨ m.cells.getD idx 0 = 3)
    (a : Nat × Nat) (hx : a.1 < m.w) (hy : a.2 < m.h) (buf : List Int)
    (hbuf : buf.getD idx 0 = m.cells.getD idx 0) :
    (processAnchor m buf a).getD idx 0 = m.cells.getD idx 0 := by
  unfold processAnchor
  cases hfa : findApplied m.rules (m.blockAt a.1 a.2) with
  | none => exact hbuf
  | some out =>
    have hb := blockAt_getD m hx hy
    have hb0 : (m.blockAt a.1 a.2).b0 = m.cells.getD (a.2 * m.w + a.1) 0 := by rw [hb]
    have hb1 : (m.blockAt a.1 a.2).b1
        = m.cells.getD (a.2 * m.w + (a.1 + 1) % m.w) 0 := by rw [hb]
    have hb2 : (m.blockAt a.1 a.2).b2
        = m.cells.getD (((a.2 + 1) % m.h) * m.w + a.1) 0 := by rw [hb]
    have hb3 : (m.blockAt a.1 a.2).b3
        = m.cells.getD (((a.2 + 1) % m.h) * m.w + (a.1 + 1) % m.w) 0 := by rw [hb]
    have hfix := sand_out_fixes _ out (hr ▸ hfa)
    have hq0 : a.2 * m.w + a.1 = idx → out.b0 = m.cells.getD idx 0 := by
      intro he
      rw [← he, ← hb0]
      exact hfix.1 (by rw [hb0, he]; exact hv)
    have hq1 : a.2 * m.w + (a.1 + 1) % m.w = idx → out.b1 = m.cells.getD idx 0 := by
      intro he
      rw [← he, ← hb1]
      exact hfix.2.1 (by rw [hb1, he]; exact hv)
    have hq2 : ((a.2 + 1) % m.h) * m.w + a.1 = idx → out.b2 = m.cells.getD idx 0 := by
      intro he
      rw [← he, ← hb2]
      exact hfix.2.2.1 (by rw [hb2, he]; exact hv)
    have hq3 : ((a.2 + 1) % m.h) * m.w + (a.1 + 1) % m.w = idx
        → out.b3 = m.cells.getD idx 0 := by
      intro he
      rw [← he, ← hb3]
      exact hfix.2.2.2 (by rw [hb3, he]; exact hv)
    exact getD_set_preserve hq3 (getD_set_preserve hq2
      (getD_set_preserve hq1 (getD_set_preserve hq0 hbuf)))

/-- Claim C9: under the sand rule table, `step()` never changes a cell that
holds ground (2) or source (3): such a cell keeps its value at its position. -/
theorem step_fixes_ground_source (m : Margolus) (hr : m.rules = build_sand_rules)
    (idx : Nat) (hv : m.cells.getD idx 0 = 2 ∨ m.cells.getD idx 0 = 3) :
    (m.step).cells.getD idx 0 = m.cells.getD idx 0 := by
  have main : ∀ as : List (Nat × Nat), (∀ a ∈ as, a.1 < m.w ∧ a.2 < m.h) →
      ∀ buf : List Int, buf.getD idx 0 = m.cells.getD idx 0 →
      (as.foldl (processAnchor m) buf).getD idx 0 = m.cells.getD idx 0 := by
    intro as
    induction as with
    | nil => intro _ buf hbuf; exact hbuf
    | cons a as ih =>
      intro has buf hbuf
      rw [List.foldl_cons]
      refine ih (fun a' ha' => has a' (List.mem_cons_of_mem _ ha')) _ ?_
      have haa := has a (List.mem_cons_self _ _)
      exact processAnchor_fix_preserve m hr idx hv a haa.1 haa.2 buf hbuf
  exact main _ (fun a ha => anchors_coord_lt ha) m.cells rfl

/-- Witness for claim C9: on the 2x2 grid (1,0,2,0) rule 3 moves the sand
grain, and the ground cell at index 2 keeps its value. -/
theorem step_fixes_ground_source_witness :
    (Margolus.step ⟨2, 2, [1, 0, 2, 0], false, build_sand_rules⟩).cells.getD 2 0
      = (⟨2, 2, [1, 0, 2, 0], false, build_sand_rules⟩ : Margolus).cells.getD 2 0 :=
  step_fixes_ground_source ⟨2, 2, [1, 0, 2, 0], false, build_sand_rules⟩ rfl 2
    (Or.inl (by decide))

/-! ### Geometry of the block partition (even grids) -/

/-- The anchor x-coordinate of the block that owns column `x` under offset
`o`: the column itself when its parity matches the offset, else the column
one to the left (toroidally). -/
def anchor1 (x w o : Nat) : Nat := if x % 2 = o % 2 then x else (x + w - 1) % w

/-- The anchor of the block that owns the flat cell index `p`. -/
def cellAnchor (w h o p : Nat) : Nat × Nat := (anchor1 (p % w) w o, anchor1 (p / w) h o)

theorem anchor1_self {w o i : Nat} (hw2 : w % 2 = 0) (hw : 0 < w) (ho : o ≤ 1)
    (hi : i < (w + 1) / 2) : anchor1 ((o + 2 * i) % w) w o = (o + 2 * i) % w := by
  have hlt : o + 2 * i < w := by omega
  rw [Nat.mod_eq_of_lt hlt]
  unfold anchor1
  rw [if_pos (by omega)]

theorem anchor1_succ {w o i : Nat} (hw2 : w % 2 = 0) (hw : 0 < w) (ho : o ≤ 1)
    (hi : i < (w + 1) / 2) :
    anchor1 (((o + 2 * i) % w + 1) % w) w o = (o + 2 * i) % w := by
  have hlt : o + 2 * i < w := by omega
  rw [Nat.mod_eq_of_lt hlt]
  by_cases hc : o + 2 * i + 1 < w
  · rw [Nat.mod_eq_of_lt hc]
    unfold anchor1
    rw [if_neg (by omega)]
    rw [show o + 2 * i + 1 + w - 1 = o + 2 * i + w by omega, Nat.add_mod_right,
      Nat.mod_eq_of_lt hlt]
  · have hxe : o + 2 * i + 1 = w := by omega
    rw [hxe, Nat.mod_self]
    unfold anchor1
    rw [if_neg (by omega)]
    rw [show 0 + w - 1 = w - 1 by omega, Nat.mod_eq_of_lt (by omega)]
    omega

theorem encode_mod {w x : Nat} (y : Nat) (hx : x < w) : (y * w + x) % w = x := by
  rw [Nat.add_comm, Nat.add_mul_mod_self_right, Nat.mod_eq_of_lt hx]

theorem encode_div {w x : Nat} (y : Nat) (hw : 0 < w) (hx : x < w) :
    (y * w + x) / w = y := by
  rw [Nat.add_comm, Nat.add_mul_div_right _ _ hw, Nat.div_eq_of_lt hx]
  omega

theorem cellAnchor_of_blockIdxs {w h o : Nat} (hw2 : w % 2 = 0) (hh2 : h % 2 = 0)
    (hw : 0 < w) (hh : 0 < h) (ho : o ≤ 1) {i j : Nat}
    (hi : i < (w + 1) / 2) (hj : j < (h + 1) / 2) :
    ∀ p ∈ blockIdxs w h ((o + 2 * i) % w) ((o + 2 * j) % h),
      cellAnchor w h o p = ((o + 2 * i) % w, (o + 2 * j) % h) := by
  intro p hp
  have hx0lt : (o + 2 * i) % w < w := Nat.mod_lt _ hw
  have hy0lt : (o + 2 * j) % h < h := Nat.mod_lt _ hh
  have hx1lt : ((o + 2 * i) % w + 1) % w < w := Nat.mod_lt _ hw
  have hy1lt : ((o + 2 * j) % h + 1) % h < h := Nat.mod_lt _ hh
  have hax0 := anchor1_self hw2 hw ho hi
  have hax1 := anchor1_succ hw2 hw ho hi
  have hay0 := anchor1_self hh2 hh ho hj
  have hay1 := anchor1_succ hh2 hh ho hj
  simp only [blockIdxs, List.mem_cons, List.not_mem_nil, or_false] at hp
  unfold cellAnchor
  rcases hp with rfl | rfl | rfl | rfl
  · rw [encode_mod _ hx0lt, encode_div _ hw hx0lt, hax0, hay0]
  · rw [encode_mod _ hx1lt, encode_div _ hw hx1lt, hax1, hay0]
  · rw [encode_mod _ hx0lt, encode_div _ hw hx0lt, hax0, hay1]
  · rw [encode_mod _ hx1lt, encode_div _ hw hx1lt, hax1, hay1]

theorem anchors_cellAnchor {w h : Nat} {off : Bool} (hw2 : w % 2 = 0) (hh2 : h % 2 = 0)
    (hw : 0 < w) (hh : 0 < h) {a : Nat × Nat} (ha : a ∈ anchors w h off) :
    ∀ p ∈ blockIdxs w h a.1 a.2, cellAnchor w h (if off then 1 else 0) p = a := by
  obtain ⟨i, j, hi, hj, hx, hy⟩ := mem_anchors ha
  have ho : (if off then 1 else 0) ≤ 1 := by cases off <;> simp
  rcases a with ⟨ax, ay⟩
  simp only at hx hy
  subst hx
  subst hy
  exact cellAnchor_of_blockIdxs hw2 hh2 hw hh ho hi hj

theorem anchors_nodup {w h : Nat} (off : Bool) (hw2 : w % 2 = 0) (hh2 : h % 2 = 0) :
    (anchors w h off).Nodup := by
  unfold anchors
  have ho : (if off then 1 else 0) ≤ 1 := by cases off <;> simp
  rw [List.nodup_flatMap]
  constructor
  · intro j hj
    refine List.Nodup.map_on ?_ (List.nodup_range _)
    intro i1 h1 i2 h2 he
    simp only [List.mem_range] at h1 h2
    have e1 : ((if off then 1 else 0) + 2 * i1) % w
        = ((if off then 1 else 0) + 2 * i2) % w := congrArg Prod.fst he
    rw [Nat.mod_eq_of_lt (by omega), Nat.mod_eq_of_lt (by omega)] at e1
    omega
  · have hp : List.Pairwise (· ≠ ·) (List.range ((h + 1) / 2)) := List.nodup_range _
    refine hp.imp_of_mem ?_
    intro j1 j2 h1 h2 hne
    simp only [List.mem_range] at h1 h2
    intro x hx1 hx2
    simp only [List.mem_map, List.mem_range] at hx1 hx2
    obtain ⟨i1, hi1, rfl⟩ := hx1
    obtain ⟨i2, hi2, he⟩ := hx2
    have e3 := congrArg Prod.snd he
    simp only at e3
    rw [Nat.mod_eq_of_lt (show (if off then 1 else 0) + 2 * j2 < h by omega),
      Nat.mod_eq_of_lt (show (if off then 1 else 0) + 2 * j1 < h by omega)] at e3
    omega

theorem blockWrites_mem {m : Margolus} {x0 y0 : Nat} {pv : Nat × Int}
    (hpv : pv ∈ blockWrites m x0 y0) :
    (∃ out, findApplied m.rules (m.blockAt x0 y0) = some out)
      ∧ pv.1 ∈ blockIdxs m.w m.h x0 y0 := by
  unfold blockWrites at hpv
  cases hfa : findApplied m.rules (m.blockAt x0 y0) with
  | none =>
    rw [hfa] at hpv
    simp at hpv
  | some out =>
    rw [hfa] at hpv
    refine ⟨⟨out, rfl⟩, ?_⟩
    simp only [List.mem_cons, List.not_mem_nil, or_false] at hpv
    rcases hpv with rfl | rfl | rfl | rfl <;> simp [blockIdxs]

/-- Claim C4: a block (at an anchor of the current phase, on an even grid)
that matches no rule of the table, directly or mirrored, is left unchanged
by `step()` — the identity rewrite, not a failure path. -/
theorem step_unmatched_block (m : Margolus)
    (hw2 : m.w % 2 = 0) (hh2 : m.h % 2 = 0)
    {x0 y0 : Nat} (ha : (x0, y0) ∈ anchors m.w m.h m.offset)
    (hnone : findApplied m.rules (m.blockAt x0 y0) = none) :
    (m.step).blockAt x0 y0 = m.blockAt x0 y0 := by
  have hc := anchors_coord_lt ha
  simp only at hc
  have hw : 0 < m.w := by omega
  have hh : 0 < m.h := by omega
  have hpres : ∀ p ∈ blockIdxs m.w m.h x0 y0,
      (m.step).cells.getD p 0 = m.cells.getD p 0 := by
    intro p hp
    rw [Margolus.step, stepWith_cells]
    apply applyWrites_getD_of_not_mem
    intro hmem
    obtain ⟨pv, hpv, hfst⟩ := List.mem_map.1 hmem
    obtain ⟨a', ha', hpw⟩ := List.mem_flatMap.1 hpv
    obtain ⟨⟨out, hout⟩, hpidx⟩ := blockWrites_mem hpw
    rcases a' with ⟨ax, ay⟩
    have e1 := anchors_cellAnchor hw2 hh2 hw hh ha' pv.1 hpidx
    have e2 := anchors_cellAnchor hw2 hh2 hw hh ha p hp
    rw [hfst] at e1
    rw [e2] at e1
    simp only [Prod.mk.injEq] at e1
    obtain ⟨ex, ey⟩ := e1
    subst ex
    subst ey
    have h2 : findApplied m.rules (m.blockAt x0 y0) = some out := hout
    rw [hnone] at h2
    cases h2
  have e0 := hpres (y0 * m.w + x0) (by simp [blockIdxs])
  have e1 := hpres (y0 * m.w + (x0 + 1) % m.w) (by simp [blockIdxs])
  have e2 := hpres (((y0 + 1) % m.h) * m.w + x0) (by simp [blockIdxs])
  have e3 := hpres (((y0 + 1) % m.h) * m.w + (x0 + 1) % m.w) (by simp [blockIdxs])
  have hb1 := blockAt_getD m hc.1 hc.2
  have hb2 := blockAt_getD (m.step) (show x0 < (m.step).w from hc.1)
    (show y0 < (m.step).h from hc.2)
  rw [hb1, hb2]
  simp only [Block.mk.injEq]
  exact ⟨e0, e1, e2, e3⟩

/-- Witness for claim C4: the all-source 2x2 block matches no sand rule and
is unchanged by `step()`. -/
theorem step_unmatched_block_witness :
    (Margolus.step ⟨2, 2, [3, 3, 3, 3], false, build_sand_rules⟩).blockAt 0 0
      = (⟨2, 2, [3, 3, 3, 3], false, build_sand_rules⟩ : Margolus).blockAt 0 0 :=
  @step_unmatched_block ⟨2, 2, [3, 3, 3, 3], false, build_sand_rules⟩ rfl rfl 0 0
    (by decide) (by decide)

/-! ### Claim C10: the number of sand cells never decreases -/

/-- Number of sand cells (value 1) in a buffer. -/
def count1 (l : List Int) : Nat := l.countP (fun v => v == 1)

theorem ind1_beq (v : Int) : (if v == 1 then 1 else 0) = ind1 v := by
  by_cases hv : v = 1 <;> simp [ind1, hv]

theorem count1_set {l : List Int} {q : Nat} (hq : q < l.length) (v : Int) :
    count1 (l.set q v) + ind1 (l.getD q 0) = count1 l + ind1 v := by
  induction l generalizing q with
  | nil => simp at hq
  | cons x xs ih =>
    cases q with
    | zero =>
      show count1 (v :: xs) + ind1 x = count1 (x :: xs) + ind1 v
      simp only [count1, List.countP_cons, ind1_beq]
      omega
    | succ q =>
      show count1 (x :: xs.set q v) + ind1 (xs.getD q 0) = count1 (x :: xs) + ind1 v
      simp only [count1, List.countP_cons, ind1_beq]
      have hq2 : q < xs.length := by
        simp only [List.length_cons] at hq
        omega
      have := ih hq2
      simp only [count1] at this
      omega

theorem getD_set_ne {l : List Int} {i j : Nat} (hij : i ≠ j) (v : Int) :
    (l.set i v).getD j 0 = l.getD j 0 := by
  rw [List.getD_eq_getElem?_getD, List.getElem?_set_ne hij, ← List.getD_eq_getElem?_getD]

theorem count1_write4 {buf : List Int} {q0 q1 q2 q3 : Nat} {v0 v1 v2 v3 w0 w1 w2 w3 : Int}
    (hq0 : q0 < buf.length) (hq1 : q1 < buf.length)
    (hq2 : q2 < buf.length) (hq3 : q3 < buf.length)
    (n01 : q0 ≠ q1) (n02 : q0 ≠ q2) (n03 : q0 ≠ q3)
    (n12 : q1 ≠ q2) (n13 : q1 ≠ q3) (n23 : q2 ≠ q3)
    (a0 : buf.getD q0 0 = w0) (a1 : buf.getD q1 0 = w1)
    (a2 : buf.getD q2 0 = w2) (a3 : buf.getD q3 0 = w3)
    (hcnt : ind1 w0 + ind1 w1 + ind1 w2 + ind1 w3
      ≤ ind1 v0 + ind1 v1 + ind1 v2 + ind1 v3) :
    count1 buf ≤ count1 ((((buf.set q0 v0).set q1 v1).set q2 v2).set q3 v3) := by
  have c0 := count1_set hq0 v0
  have c1 := count1_set (show q1 < (buf.set q0 v0).length by simpa using hq1) v1
  have c2 := count1_set
    (show q2 < ((buf.set q0 v0).set q1 v1).length by simpa using hq2) v2
  have c3 := count1_set
    (show q3 < (((buf.set q0 v0).set q1 v1).set q2 v2).length by simpa using hq3) v3
  rw [a0] at c0
  rw [getD_set_ne n01, a1] at c1
  rw [getD_set_ne n12, getD_set_ne n02, a2] at c2
  rw [getD_set_ne n23, getD_set_ne n13, getD_set_ne n03, a3] at c3
  omega

theorem flatIdx_lt {w h x y : Nat} (hx : x < w) (hy : y < h) : y * w + x < w * h := by
  have h1 : y * w + x < y * w + w := by omega
  have h2 : y * w + w = (y + 1) * w := by ring
  have h3 : (y + 1) * w ≤ h * w := Nat.mul_le_mul_right w (by omega)
  have h4 : h * w = w * h := Nat.mul_comm h w
  omega

theorem flatIdx_ne {w x x' y y' : Nat} (hx : x < w) (hx' : x' < w)
    (hne : x ≠ x' ∨ y ≠ y') : y * w + x ≠ y' * w + x' := by
  intro he
  have hw : 0 < w := by omega
  have e1 : x = x' := by
    have h2 := congrArg (· % w) he
    simpa [encode_mod y hx, encode_mod y' hx'] using h2
  have e2 : y = y' := by
    have h2 := congrArg (· / w) he
    simpa [encode_div y hw hx, encode_div y' hw hx'] using h2
  tauto

theorem succ_mod_ne {w x : Nat} (hx : x < w) (hw : 2 ≤ w) : (x + 1) % w ≠ x := by
  by_cases hc : x + 1 < w
  · rw [Nat.mod_eq_of_lt hc]
    omega
  · have he : x + 1 = w := by omega
    rw [he, Nat.mod_self]
    omega

theorem processAnchor_count (m : Margolus) (hr : m.rules = build_sand_rules)
    {a : Nat × Nat} (hxw : a.1 < m.w) (hyh : a.2 < m.h)
    (hw2 : m.w % 2 = 0) (hh2 : m.h % 2 = 0)
    {buf : List Int} (hlen : buf.length = m.w * m.h)
    (hagree : ∀ p ∈ blockIdxs m.w m.h a.1 a.2, buf.getD p 0 = m.cells.getD p 0) :
    count1 buf ≤ count1 (processAnchor m buf a) := by
  unfold processAnchor
  cases hfa : findApplied m.rules (m.blockAt a.1 a.2) with
  | none => exact Nat.le_refl _
  | some out =>
    have hcnt := sand_out_count _ out (hr ▸ hfa)
    have hcnt2 : ind1 (m.blockAt a.1 a.2).b0 + ind1 (m.blockAt a.1 a.2).b1
        + ind1 (m.blockAt a.1 a.2).b2 + ind1 (m.blockAt a.1 a.2).b3
        ≤ ind1 out.b0 + ind1 out.b1 + ind1 out.b2 + ind1 out.b3 := hcnt
    have hb := blockAt_getD m hxw hyh
    have hW2 : 2 ≤ m.w := by omega
    have hH2 : 2 ≤ m.h := by omega
    have hx1 : (a.1 + 1) % m.w < m.w := Nat.mod_lt _ (by omega)
    have hy1 : (a.2 + 1) % m.h < m.h := Nat.mod_lt _ (by omega)
    have hxne : (a.1 + 1) % m.w ≠ a.1 := succ_mod_ne hxw hW2
    have hyne : (a.2 + 1) % m.h ≠ a.2 := succ_mod_ne hyh hH2
    have a0 : buf.getD (a.2 * m.w + a.1) 0 = (m.blockAt a.1 a.2).b0 := by
      rw [hb]
      exact hagree _ (by simp [blockIdxs])
    have a1 : buf.getD (a.2 * m.w + (a.1 + 1) % m.w) 0 = (m.blockAt a.1 a.2).b1 := by
      rw [hb]
      exact hagree _ (by simp [blockIdxs])
    have a2 : buf.getD (((a.2 + 1) % m.h) * m.w + a.1) 0 = (m.blockAt a.1 a.2).b2 := by
      rw [hb]
      exact hagree _ (by simp [blockIdxs])
    have a3 : buf.getD (((a.2 + 1) % m.h) * m.w + (a.1 + 1) % m.w) 0
        = (m.blockAt a.1 a.2).b3 := by
      rw [hb]
      exact hagree _ (by simp [blockIdxs])
    show count1 buf ≤ count1 ((((buf.set (a.2 * m.w + a.1) out.b0).set
      (a.2 * m.w + (a.1 + 1) % m.w) out.b1).set
      (((a.2 + 1) % m.h) * m.w + a.1) out.b2).set
      (((a.2 + 1) % m.h) * m.w + (a.1 + 1) % m.w) out.b3)
    refine count1_write4 ?_ ?_ ?_ ?_ ?_ ?_ ?_ ?_ ?_ ?_ a0 a1 a2 a3 hcnt2
    · rw [hlen]
      exact flatIdx_lt hxw hyh
    · rw [hlen]
      exact flatIdx_lt hx1 hyh
    · rw [hlen]
      exact flatIdx_lt hxw hy1
    · rw [hlen]
      exact flatIdx_lt hx1 hy1
    · exact flatIdx_ne hxw hx1 (Or.inl (Ne.symm hxne))
    · exact flatIdx_ne hxw hxw (Or.inr (Ne.symm hyne))
    · exact flatIdx_ne hxw hx1 (Or.inl (Ne.symm hxne))
    · exact flatIdx_ne hx1 hxw (Or.inl hxne)
    · exact flatIdx_ne hx1 hx1 (Or.inr (Ne.symm hyne))
    · exact flatIdx_ne hxw hx1 (Or.inl (Ne.symm hxne))

theorem processAnchor_length (m : Margolus) (buf : List Int) (a : Nat × Nat) :
    (processAnchor m buf a).length = buf.length := by
  unfold processAnchor
  cases findApplied m.rules (m.blockAt a.1 a.2) <;> simp [writeBlock]

theorem processAnchor_getD_stable {m : Margolus} {buf : List Int} {a : Nat × Nat} {p : Nat}
    (hp : p ∉ blockIdxs m.w m.h a.1 a.2) :
    (processAnchor m buf a).getD p 0 = buf.getD p 0 := by
  unfold processAnchor
  cases findApplied m.rules (m.blockAt a.1 a.2) with
  | none => rfl
  | some out =>
    simp only [blockIdxs, List.mem_cons, List.not_mem_nil, or_false, not_or] at hp
    obtain ⟨n0, n1, n2, n3⟩ := hp
    unfold writeBlock
    rw [getD_set_ne (fun he => n3 he.symm), getD_set_ne (fun he => n2 he.symm),
      getD_set_ne (fun he => n1 he.symm), getD_set_ne (fun he => n0 he.symm)]

theorem foldl_count_ge (m : Margolus) (hr : m.rules = build_sand_rules)
    (hw2 : m.w % 2 = 0) (hh2 : m.h % 2 = 0) :
    ∀ as : List (Nat × Nat),
      (∀ a ∈ as, a.1 < m.w ∧ a.2 < m.h ∧
        ∀ p ∈ blockIdxs m.w m.h a.1 a.2,
          cellAnchor m.w m.h (if m.offset then 1 else 0) p = a) →
      List.Pairwise (· ≠ ·) as →
      ∀ buf : List Int, buf.length = m.w * m.h →
        (∀ a ∈ as, ∀ p ∈ blockIdxs m.w m.h a.1 a.2, buf.getD p 0 = m.cells.getD p 0) →
        count1 buf ≤ count1 (as.foldl (processAnchor m) buf) := by
  intro as
  induction as with
  | nil =>
    intro _ _ buf _ _
    exact Nat.le_refl _
  | cons a as ih =>
    intro hfacts hpw buf hblen hagree
    rw [List.foldl_cons]
    have hfa := hfacts a (List.mem_cons_self _ _)
    have hane := (List.pairwise_cons.1 hpw).1
    have step1 : count1 buf ≤ count1 (processAnchor m buf a) :=
      processAnchor_count m hr hfa.1 hfa.2.1 hw2 hh2 hblen
        (hagree a (List.mem_cons_self _ _))
    refine Nat.le_trans step1
      (ih (fun a' ha' => hfacts a' (List.mem_cons_of_mem _ ha'))
        (List.pairwise_cons.1 hpw).2 _
        (by rw [processAnchor_length, hblen]) ?_)
    intro a' ha' p hp
    rw [processAnchor_getD_stable ?_]
    · exact hagree a' (List.mem_cons_of_mem _ ha') p hp
    · intro hpmem
      have e1 := hfa.2.2 p hpmem
      have e2 := (hfacts a' (List.mem_cons_of_mem _ ha')).2.2 p hp
      exact hane a' ha' (e1.symm.trans e2)

/-- Claim C10: under the sand rule table on an even grid, one `step()` never
decreases the number of sand cells (value 1): the first three rules move
sand, and the source rule can only add a grain. -/
theorem step_sand_count_mono (m : Margolus) (hr : m.rules = build_sand_rules)
    (hw2 : m.w % 2 = 0) (hh2 : m.h % 2 = 0) (hw : 0 < m.w) (hh : 0 < m.h)
    (hcl : m.cells.length = m.w * m.h) :
    count1 m.cells ≤ count1 (m.step).cells := by
  have hfacts : ∀ a ∈ anchors m.w m.h m.offset, a.1 < m.w ∧ a.2 < m.h ∧
      ∀ p ∈ blockIdxs m.w m.h a.1 a.2,
        cellAnchor m.w m.h (if m.offset then 1 else 0) p = a := fun a ha =>
    ⟨(anchors_coord_lt ha).1, (anchors_coord_lt ha).2,
      anchors_cellAnchor hw2 hh2 hw hh ha⟩
  exact foldl_count_ge m hr hw2 hh2 _ hfacts (anchors_nodup m.offset hw2 hh2)
    m.cells hcl (fun _ _ _ _ => rfl)

/-- Witness for claim C10: a 2x2 grid with one source adds a grain of sand,
so the count grows from 0 to 1. -/
theorem step_sand_count_mono_witness :
    count1 (⟨2, 2, [3, 0, 0, 0], false, build_sand_rules⟩ : Margolus).cells
      ≤ count1 (Margolus.step ⟨2, 2, [3, 0, 0, 0], false, build_sand_rules⟩).cells :=
  step_sand_count_mono ⟨2, 2, [3, 0, 0, 0], false, build_sand_rules⟩ rfl rfl rfl
    (by decide) (by decide) rfl
